import Mathlib

set_option maxHeartbeats 1000000
set_option maxRecDepth 8000
set_option linter.unnecessarySeqFocus false

/-!
Verification development for the two scripts of this repository:
`generate_structure.py` (the Structure Generator) and `watch_structure.py`
(the Change Watcher).  The Python functions are embedded shallowly as
executable Lean definitions, and the documented properties are settled as
theorems about those definitions.
-/

/-! ### Basic string machinery -/

/-- Single-quote character as a one-character string; the generator's
f-strings wrap names in this character. -/
def sQuote : String := ⟨[Char.ofNat 39]⟩

/-- Tests whether the first character list is a leading segment of the
second one. -/
def leadsWith : List Char → List Char → Bool
  | [], _ => true
  | _ :: _, [] => false
  | a :: as, b :: bs => a == b && leadsWith as bs

/-- Auxiliary scan for substring containment. -/
def strContainsAux (pat : List Char) : List Char → Bool
  | [] => leadsWith pat []
  | c :: rest => leadsWith pat (c :: rest) || strContainsAux pat rest

/-- Substring containment: mirrors the Python expression
`pattern in path_str` (literal containment, no glob semantics). -/
def strContains (s pat : String) : Bool :=
  strContainsAux pat.data s.data

/-- Strict lexicographic order on character lists by code point; this is
how Python compares the strings underlying `sorted(Path(...).iterdir())`
for siblings of one directory. -/
def charsLt : List Char → List Char → Bool
  | _, [] => false
  | [], _ :: _ => true
  | a :: as, b :: bs =>
    if a.toNat < b.toNat then true
    else if b.toNat < a.toNat then false
    else charsLt as bs

/-! ### Structure Generator: data model -/

/-- Outcome classification for a failing directory listing: Python's
`PermissionError` versus any other `OSError`-like failure. -/
inductive FSError where
  | permission
  | other
deriving DecidableEq

/-- A filesystem entry as the generator observes it: a plain file, a
directory with its listing, or a directory whose listing raises. -/
inductive Entry where
  | file (name : String)
  | dir (name : String) (children : List Entry)
  | errdir (name : String) (err : FSError)

/-- Name of an entry (`item.name` in the source). -/
def Entry.name : Entry → String
  | .file n => n
  | .dir n _ => n
  | .errdir n _ => n

/-- Translation of `should_ignore(path, ignore_patterns)` from
`generate_structure.py`: a path is ignored when any pattern occurs in the
path string as a literal substring. -/
def should_ignore (path : String) (ignore_patterns : List String) : Bool :=
  ignore_patterns.any (fun pattern => strContains path pattern)

/-- Path of a child entry: `str(Path(base) / name)`.  `pathlib` drops the
leading `.` component, so children of the root `"."` are bare names. -/
def childPath (base name : String) : String :=
  if base = "." then name else base ++ "/" ++ name

/-- The fixed `ignore_patterns` list from `main()` of
`generate_structure.py`. -/
def defaultIgnorePatterns : List String :=
  ["node_modules", ".git", "dist", "build", ".next", "coverage",
   ".nyc_output", "*.log", ".DS_Store", "Thumbs.db", "__pycache__",
   ".pytest_cache", "venv", "env", ".env", "generate_structure.py",
   "watch_structure.py", "start-structure-watcher.bat"]

/-- Strict name order on entries, as Python's `sorted` compares sibling
paths. -/
def nameLt (a b : Entry) : Bool := charsLt a.name.data b.name.data

/-- Non-strict name order (the complement of the converse strict order). -/
def nameLe (a b : Entry) : Bool := !(nameLt b a)

/-- Stable insertion into a name-sorted list (an element moves past
strictly smaller names only, so original order among equals persists). -/
def insertByName (x : Entry) : List Entry → List Entry
  | [] => [x]
  | y :: ys => if nameLt y x then y :: insertByName x ys else x :: y :: ys

/-- Stable sort by name, modelling `sorted(Path(root_path).iterdir())`
restricted to the sibling names of one directory. -/
def sortByName : List Entry → List Entry
  | [] => []
  | x :: xs => insertByName x (sortByName xs)

/-- Rendering of a file entry: `f"<file name='{item.name}'/>"`. -/
def fileTag (n : String) : String := "<file name=" ++ sQuote ++ n ++ sQuote ++ "/>"

/-- Self-closing folder tag: `f"<folder name='{item.name}'/>"`. -/
def folderSelfTag (n : String) : String :=
  "<folder name=" ++ sQuote ++ n ++ sQuote ++ "/>"

/-- Wrapping folder tag:
`f"<folder name='{item.name}'>\n{sub_structure}</folder>"`. -/
def folderWrapTag (n sub : String) : String :=
  "<folder name=" ++ sQuote ++ n ++ sQuote ++ ">" ++ "\n" ++ sub ++ "</folder>"

/-- Truthiness of `sub_structure.strip()`: the stripped string is
non-empty exactly when some character is not whitespace. -/
def stripTruthy (s : String) : Bool := s.data.any (fun c => !c.isWhitespace)

/-- Directory rendering choice of the source: wrap when
`sub_structure.strip()` is truthy, self-close otherwise. -/
def folderTag (n sub : String) : String :=
  if stripTruthy sub then folderWrapTag n sub else folderSelfTag n

mutual
/-- Translation of `generate_directory_structure(root_path,
ignore_patterns, max_depth, current_depth)`.  The listing argument is the
outcome of `Path(root_path).iterdir()`: either the entries or the raised
error.  A `PermissionError` is swallowed (empty item list); any other
listing failure propagates. -/
def renderDirListing (ps : List String) (md cd : Nat) (base : String)
    (listing : Except FSError (List Entry)) : Except FSError String :=
  if md ≤ cd then .ok ""
  else
    match listing with
    | .error .permission => .ok ""
    | .error .other => .error .other
    | .ok entries =>
      match renderItems ps md cd base (sortByName entries) with
      | .error e => .error e
      | .ok items => .ok (String.intercalate "\n" items)
termination_by (match listing with | .ok l => 2 * sizeOf l + 2 | .error _ => 0)
decreasing_by
  all_goals simp_wf
  all_goals try (
    have hins : ∀ (x : Entry) (l : List Entry),
        sizeOf (insertByName x l) = 1 + sizeOf x + sizeOf l := by
      intro x l
      induction l with
      | nil =>
        simp only [insertByName, List.cons.sizeOf_spec, List.nil.sizeOf_spec]
      | cons y ys ih =>
        simp only [insertByName]
        split <;> (simp only [List.cons.sizeOf_spec, ih]; try omega)
    have hsort : ∀ l : List Entry, sizeOf (sortByName l) = sizeOf l := by
      intro l
      induction l with
      | nil => rfl
      | cons x xs ih =>
        simp only [sortByName, hins, List.cons.sizeOf_spec, ih]
    simp only [hsort])
  all_goals omega

/-- The body of the `for item in sorted(...)` loop: skip ignored entries,
render files as self-closing tags, recurse into directories at depth
`cd + 1`. -/
def renderItems (ps : List String) (md cd : Nat) (base : String) :
    List Entry → Except FSError (List String)
  | [] => .ok []
  | e :: rest =>
    if should_ignore (childPath base (Entry.name e)) ps then
      renderItems ps md cd base rest
    else
      match e with
      | .file n =>
        match renderItems ps md cd base rest with
        | .error er => .error er
        | .ok items => .ok (fileTag n :: items)
      | .dir n ch =>
        match renderDirListing ps md (cd + 1) (childPath base n) (.ok ch) with
        | .error er => .error er
        | .ok sub =>
          match renderItems ps md cd base rest with
          | .error er => .error er
          | .ok items => .ok (folderTag n sub :: items)
      | .errdir n fe =>
        match renderDirListing ps md (cd + 1) (childPath base n) (.error fe) with
        | .error er => .error er
        | .ok sub =>
          match renderItems ps md cd base rest with
          | .error er => .error er
          | .ok items => .ok (folderTag n sub :: items)
termination_by l => 2 * sizeOf l + 1
decreasing_by
  all_goals simp_wf
  all_goals omega
end

mutual
/-- Removal, at every level, of the entries the generator skips: an entry
whose path string contains an ignore pattern is dropped together with all
of its descendants. -/
def pruneEntry (ps : List String) (base : String) : Entry → Entry
  | .file n => .file n
  | .dir n ch => .dir n (pruneList ps (childPath base n) ch)
  | .errdir n e => .errdir n e

/-- Sibling-list version of `pruneEntry`: drops ignored entries and prunes
the surviving ones recursively. -/
def pruneList (ps : List String) (base : String) : List Entry → List Entry
  | [] => []
  | e :: rest =>
    if should_ignore (childPath base (Entry.name e)) ps then
      pruneList ps base rest
    else pruneEntry ps base e :: pruneList ps base rest
end

mutual
/-- Truncation of an entry below a remaining depth budget: with budget
`k + 1` the entry itself survives and directory children keep budget `k`. -/
def truncEntry (k : Nat) : Entry → Entry
  | .file n => .file n
  | .dir n ch => .dir n (truncList k ch)
  | .errdir n e => .errdir n e
termination_by e => (k, sizeOf e)

/-- Truncation of a sibling list: budget `0` discards everything (the
generator returns an empty rendering there without reading the listing);
budget `k + 1` keeps the level and truncates children at budget `k`. -/
def truncList : Nat → List Entry → List Entry
  | 0, _ => []
  | _ + 1, [] => []
  | k + 1, e :: rest => truncEntry k e :: truncList (k + 1) rest
termination_by k l => (k, sizeOf l)
end

/-! ### The summary count of `main()` -/

/-- First occurrence split: returns the part before the first occurrence
of `pat` and the remainder after it, or `none` when `pat` does not occur. -/
def splitFirst (pat : List Char) : List Char → Option (List Char × List Char)
  | [] => if pat.isEmpty then some ([], []) else none
  | c :: rest =>
    if leadsWith pat (c :: rest) then some ([], (c :: rest).drop pat.length)
    else
      match splitFirst pat rest with
      | none => none
      | some (a, b) => some (c :: a, b)

/-- Fuelled version of Python's `str.split(sep)` for a non-empty
separator: cut at each left-to-right non-overlapping occurrence. -/
def pySplitAux (pat : List Char) : Nat → List Char → List (List Char)
  | 0, s => [s]
  | fuel + 1, s =>
    match splitFirst pat s with
    | none => [s]
    | some (a, b) => a :: pySplitAux pat fuel b

/-- Python's `s.split(pat)` (the fuel is large enough for any non-empty
separator). -/
def pySplit (pat s : List Char) : List (List Char) :=
  pySplitAux pat (s.length + 1) s

/-- Fuelled count of left-to-right non-overlapping occurrences of `pat`. -/
def countOccAux (pat : List Char) : Nat → List Char → Nat
  | 0, _ => 0
  | fuel + 1, s =>
    match splitFirst pat s with
    | none => 0
    | some (_, b) => countOccAux pat fuel b + 1

/-- Number of occurrences of `pat` in `s`. -/
def countOcc (pat s : List Char) : Nat :=
  countOccAux pat (s.length + 1) s

/-- The number printed by `main()`:
`len(structure.split('<file'))`. -/
def reportedFileCount (s : String) : Nat :=
  (pySplit ("<file").data s.data).length

/-- How many `<file` tokens actually appear in the text. -/
def fileTokenCount (s : String) : Nat :=
  countOcc ("<file").data s.data

/-! ### Change Watcher: data model -/

/-- A filesystem node as the watcher's `os.walk` observes it: a regular
file with its modification time (`none` when `os.path.getmtime` raises),
a listable directory, or a directory whose listing fails (silently skipped
by `os.walk`). -/
inductive WTree where
  | wfile (name : String) (mtime : Option Nat)
  | wdir (name : String) (children : List WTree)
  | werrdir (name : String)

/-- Path join as `os.path.join(root, name)` produces it during the walk. -/
def osJoin (base name : String) : String := base ++ "/" ++ name

/-- Exact directory names pruned by the watcher:
`dirs[:] = [d for d in dirs if d not in ['node_modules', '.git', 'dist', 'build']]`. -/
def pruneNames : List String := ["node_modules", ".git", "dist", "build"]

/-- The fixed watch list of `watch_and_regenerate`. -/
def watchDirs : List String := ["src", "api", "config", "docs", "public"]

/-- The watcher's modification-time table (`last_modified`), a mapping
from path string to the last observed timestamp. -/
abbrev MTable := List (String × Nat)

/-- Dictionary lookup in the modification-time table. -/
def lookupT : MTable → String → Option Nat
  | [], _ => none
  | (k, v) :: rest, key => if k = key then some v else lookupT rest key

/-- Dictionary update `last_modified[file_path] = current_modified`:
replaces the value of an existing key, otherwise appends the new key. -/
def setT : MTable → String → Nat → MTable
  | [], key, v => [(key, v)]
  | (k, v0) :: rest, key, v =>
    if k = key then (k, v) :: rest else (k, v0) :: setT rest key v

/-- The per-file body of the walk: a failed `getmtime` is skipped; a new
path or a differing timestamp updates the table and sets the `changed`
flag. -/
def processFile (st : MTable × Bool) (path : String) (m : Option Nat) :
    MTable × Bool :=
  match m with
  | none => st
  | some mv =>
    if lookupT st.1 path = some mv then st else (setT st.1 path mv, true)

/-- Processes the regular files of one directory level, left to right. -/
def processFiles (base : String) : List WTree → MTable × Bool → MTable × Bool
  | [], st => st
  | .wfile n m :: rest, st => processFiles base rest (processFile st (osJoin base n) m)
  | .wdir _ _ :: rest, st => processFiles base rest st
  | .werrdir _ :: rest, st => processFiles base rest st

mutual
/-- Descent into the subdirectories of one level: a subdirectory whose
name is exactly one of `pruneNames` is skipped; an unlistable directory
yields nothing (as `os.walk` silently skips it); every other subdirectory
is walked. -/
def walkDirs (base : String) : List WTree → MTable × Bool → MTable × Bool
  | [], st => st
  | .wfile _ _ :: rest, st => walkDirs base rest st
  | .wdir n ch :: rest, st =>
    if pruneNames.contains n then walkDirs base rest st
    else walkDirs base rest (walkContents (osJoin base n) ch st)
  | .werrdir _ :: rest, st => walkDirs base rest st
termination_by l => 2 * sizeOf l
decreasing_by
  all_goals simp_wf
  all_goals omega

/-- One `os.walk` step at directory `base` with listing `l`: handle the
files of this level, then walk the non-pruned subdirectories (top-down
order, as `os.walk` yields them). -/
def walkContents (base : String) (l : List WTree) (st : MTable × Bool) :
    MTable × Bool :=
  walkDirs base l (processFiles base l st)
termination_by 2 * sizeOf l + 1
decreasing_by
  all_goals simp_wf
end

/-- The `for watch_dir in watch_dirs` loop of one polling iteration: a
watch directory that does not exist (`fs d = none`) is skipped. -/
def pollRoots (fs : String → Option (List WTree)) :
    List String → MTable × Bool → MTable × Bool
  | [], st => st
  | d :: rest, st =>
    match fs d with
    | none => pollRoots fs rest st
    | some l => pollRoots fs rest (walkContents d l st)

/-- One complete polling iteration of `watch_and_regenerate`: `changed`
starts `False`, then all existing watch directories are walked. -/
def pollStep (fs : String → Option (List WTree)) (t : MTable) :
    MTable × Bool :=
  pollRoots fs watchDirs (t, false)

/-- Number of `subprocess.run(['python', 'generate_structure.py'], ...)`
invocations made by one polling iteration. -/
def iterationInvocations (fs : String → Option (List WTree)) (t : MTable) :
    Nat :=
  if (pollStep fs t).2 then 1 else 0

/-- The fresh `last_modified = {}` created when the watcher process
starts. -/
def initialLastModified : MTable := []

/-- The modification-time table after `n` polling iterations of a watcher
process, where `fss i` is the filesystem as seen by iteration `i`. -/
def watchRun (fss : Nat → String → Option (List WTree)) : Nat → MTable
  | 0 => initialLastModified
  | n + 1 => (pollStep (fss n) (watchRun fss n)).1

/-- The `(path, mtime)` pairs of the regular files of one level, in walk
order. -/
def filesOf (base : String) : List WTree → List (String × Option Nat)
  | [] => []
  | .wfile n m :: rest => (osJoin base n, m) :: filesOf base rest
  | .wdir _ _ :: rest => filesOf base rest
  | .werrdir _ :: rest => filesOf base rest

mutual
/-- The files the walk visits inside the non-pruned subdirectories of one
level. -/
def visitedDirs (base : String) : List WTree → List (String × Option Nat)
  | [] => []
  | .wfile _ _ :: rest => visitedDirs base rest
  | .wdir n ch :: rest =>
    (if pruneNames.contains n then [] else visitedContents (osJoin base n) ch)
      ++ visitedDirs base rest
  | .werrdir _ :: rest => visitedDirs base rest
termination_by l => 2 * sizeOf l
decreasing_by
  all_goals simp_wf
  all_goals omega

/-- All files `os.walk` visits below directory `base` with listing `l`,
in visit order. -/
def visitedContents (base : String) (l : List WTree) :
    List (String × Option Nat) :=
  filesOf base l ++ visitedDirs base l
termination_by 2 * sizeOf l + 1
decreasing_by
  all_goals simp_wf
end

/-- All files one polling iteration visits across the existing watch
directories. -/
def visitedPoll (fs : String → Option (List WTree)) :
    List String → List (String × Option Nat)
  | [] => []
  | d :: rest =>
    (match fs d with
     | none => []
     | some l => visitedContents d l) ++ visitedPoll fs rest

/-- Sequential processing of a flat visit list (the walk's effect on the
state is exactly this fold). -/
def processList : List (String × Option Nat) → MTable × Bool → MTable × Bool
  | [], st => st
  | (p, m) :: rest, st => processList rest (processFile st p m)

/-- Whether a visited file triggers the `changed` flag when compared
against the table `t`: its timestamp was read and the table does not
record exactly that value. -/
def fires (t : MTable) (pm : String × Option Nat) : Bool :=
  match pm.2 with
  | none => false
  | some m => !(decide (lookupT t pm.1 = some m))

/-! ### Theorems.  First, supporting lemmas. -/

theorem sizeOf_insertByName (x : Entry) :
    ∀ l : List Entry, sizeOf (insertByName x l) = 1 + sizeOf x + sizeOf l
  | [] => by
    simp only [insertByName, List.cons.sizeOf_spec, List.nil.sizeOf_spec]
  | y :: ys => by
    simp only [insertByName]
    split <;> (simp only [List.cons.sizeOf_spec, sizeOf_insertByName x ys]; try omega)

theorem sizeOf_sortByName : ∀ l : List Entry, sizeOf (sortByName l) = sizeOf l
  | [] => rfl
  | x :: xs => by
    simp only [sortByName, sizeOf_insertByName, List.cons.sizeOf_spec,
      sizeOf_sortByName xs]

theorem intercalate_nil (s : String) : String.intercalate s [] = "" := rfl

theorem intercalate_single (s a : String) : String.intercalate s [a] = a := rfl

theorem charsLt_irrefl : ∀ a : List Char, charsLt a a = false
  | [] => rfl
  | c :: cs => by simp [charsLt, charsLt_irrefl cs]

theorem charsLt_asymm :
    ∀ a b : List Char, charsLt a b = true → charsLt b a = false
  | a, [] => by intro h; cases a <;> simp [charsLt] at h
  | [], _ :: _ => by intro _; simp [charsLt]
  | a :: as, b :: bs => by
    intro h
    simp only [charsLt] at h ⊢
    by_cases h1 : a.toNat < b.toNat
    · simp [h1, show ¬ b.toNat < a.toNat by omega]
    · by_cases h2 : b.toNat < a.toNat
      · simp [h1, h2] at h
      · simp only [h1, h2, if_false] at h ⊢
        exact charsLt_asymm as bs h

theorem charsLt_lt_of_nlt :
    ∀ a b c : List Char,
      charsLt a b = true → charsLt c b = false → charsLt a c = true
  | a, [], c => by intro h _; cases a <;> simp [charsLt] at h
  | a, _ :: _, [] => by intro _ h2; simp [charsLt] at h2
  | [], _ :: _, _ :: _ => by intro _ _; simp [charsLt]
  | a :: as, b :: bs, c :: cs => by
    intro h1 h2
    simp only [charsLt] at h1 h2 ⊢
    by_cases hab : a.toNat < b.toNat
    · by_cases hcb : c.toNat < b.toNat
      · simp [hcb] at h2
      · by_cases hbc : b.toNat < c.toNat
        · simp [show a.toNat < c.toNat by omega]
        · simp [show a.toNat < c.toNat by omega]
    · by_cases hba : b.toNat < a.toNat
      · simp [hab, hba] at h1
      · simp only [hab, hba, if_false] at h1
        by_cases hcb : c.toNat < b.toNat
        · simp [hcb] at h2
        · by_cases hbc : b.toNat < c.toNat
          · simp [show a.toNat < c.toNat by omega]
          · simp only [hcb, hbc, if_false] at h2
            simp only [show ¬ a.toNat < c.toNat by omega,
              show ¬ c.toNat < a.toNat by omega, if_false]
            exact charsLt_lt_of_nlt as bs cs h1 h2

theorem charsLt_nlt_trans {a b c : List Char}
    (h1 : charsLt b a = false) (h2 : charsLt c b = false) :
    charsLt c a = false := by
  by_cases hca : charsLt c a = true
  · have := charsLt_lt_of_nlt c a b hca h1
    rw [this] at h2
    exact absurd h2 (by simp)
  · simpa using hca

theorem nameLe_of_not_lt {x y : Entry} (h : nameLt y x = false) :
    nameLe x y = true := by simp [nameLe, h]

theorem nameLe_of_lt {x y : Entry} (h : nameLt y x = true) :
    nameLe y x = true := by
  simp only [nameLe, nameLt] at h ⊢
  simp [charsLt_asymm _ _ h]

theorem nameLe_trans {a b c : Entry} (h1 : nameLe a b = true)
    (h2 : nameLe b c = true) : nameLe a c = true := by
  simp only [nameLe, nameLt, Bool.not_eq_true'] at h1 h2 ⊢
  exact charsLt_nlt_trans h1 h2

/-! ### Unfolding equations for the renderer -/

theorem renderDirListing_depth (ps : List String) {md cd : Nat}
    (base : String) (listing : Except FSError (List Entry)) (h : md ≤ cd) :
    renderDirListing ps md cd base listing = .ok "" := by
  cases listing with
  | error e => cases e <;> simp [renderDirListing, h]
  | ok l => simp [renderDirListing, h]

theorem renderDirListing_permission (ps : List String) {md cd : Nat}
    (base : String) (h : cd < md) :
    renderDirListing ps md cd base (.error .permission) = .ok "" := by
  simp [renderDirListing, Nat.not_le.mpr h]

theorem renderDirListing_error_other (ps : List String) {md cd : Nat}
    (base : String) (h : cd < md) :
    renderDirListing ps md cd base (.error .other) = .error .other := by
  simp [renderDirListing, Nat.not_le.mpr h]

theorem renderDirListing_ok (ps : List String) {md cd : Nat}
    (base : String) (entries : List Entry) (h : cd < md) :
    renderDirListing ps md cd base (.ok entries) =
      match renderItems ps md cd base (sortByName entries) with
      | .error e => .error e
      | .ok items => .ok (String.intercalate "\n" items) := by
  simp [renderDirListing, Nat.not_le.mpr h]

theorem renderItems_nil (ps : List String) (md cd : Nat) (base : String) :
    renderItems ps md cd base [] = .ok [] := by
  simp [renderItems]

theorem renderItems_cons_ignored (ps : List String) (md cd : Nat)
    (base : String) (e : Entry) (rest : List Entry)
    (h : should_ignore (childPath base (Entry.name e)) ps = true) :
    renderItems ps md cd base (e :: rest) = renderItems ps md cd base rest := by
  cases e <;> simp_all [renderItems, Entry.name]

theorem renderItems_cons_file (ps : List String) (md cd : Nat)
    (base n : String) (rest : List Entry)
    (h : should_ignore (childPath base n) ps = false) :
    renderItems ps md cd base (.file n :: rest) =
      match renderItems ps md cd base rest with
      | .error er => .error er
      | .ok items => .ok (fileTag n :: items) := by
  simp [renderItems, Entry.name, h]

theorem renderItems_cons_dir (ps : List String) (md cd : Nat)
    (base n : String) (ch rest : List Entry)
    (h : should_ignore (childPath base n) ps = false) :
    renderItems ps md cd base (.dir n ch :: rest) =
      match renderDirListing ps md (cd + 1) (childPath base n) (.ok ch) with
      | .error er => .error er
      | .ok sub =>
        match renderItems ps md cd base rest with
        | .error er => .error er
        | .ok items => .ok (folderTag n sub :: items) := by
  simp [renderItems, Entry.name, h]

theorem renderItems_cons_errdir (ps : List String) (md cd : Nat)
    (base n : String) (fe : FSError) (rest : List Entry)
    (h : should_ignore (childPath base n) ps = false) :
    renderItems ps md cd base (.errdir n fe :: rest) =
      match renderDirListing ps md (cd + 1) (childPath base n) (.error fe) with
      | .error er => .error er
      | .ok sub =>
        match renderItems ps md cd base rest with
        | .error er => .error er
        | .ok items => .ok (folderTag n sub :: items) := by
  simp [renderItems, Entry.name, h]

/-! ### The sort is a sorted permutation -/

theorem insertByName_perm (x : Entry) :
    ∀ l : List Entry, List.Perm (insertByName x l) (x :: l)
  | [] => List.Perm.refl _
  | y :: ys => by
    simp only [insertByName]
    split
    · exact ((insertByName_perm x ys).cons y).trans (List.Perm.swap x y ys)
    · exact List.Perm.refl _

theorem sortByName_perm : ∀ l : List Entry, List.Perm (sortByName l) l
  | [] => List.Perm.refl _
  | x :: xs =>
    (insertByName_perm x (sortByName xs)).trans ((sortByName_perm xs).cons x)

theorem insertByName_pairwise (x : Entry) :
    ∀ l : List Entry, l.Pairwise (fun a b => nameLe a b = true) →
      (insertByName x l).Pairwise (fun a b => nameLe a b = true)
  | [], _ => by simp [insertByName]
  | y :: ys, h => by
    rw [List.pairwise_cons] at h
    obtain ⟨hy, hys⟩ := h
    simp only [insertByName]
    split
    · rename_i hlt
      rw [List.pairwise_cons]
      refine ⟨?_, insertByName_pairwise x ys hys⟩
      intro z hz
      rcases List.mem_cons.mp ((insertByName_perm x ys).mem_iff.mp hz) with hzx | hzys
      · subst hzx; exact nameLe_of_lt hlt
      · exact hy z hzys
    · rename_i hnlt
      rw [Bool.not_eq_true] at hnlt
      rw [List.pairwise_cons]
      constructor
      · intro z hz
        rcases List.mem_cons.mp hz with hzy | hzys
        · subst hzy; exact nameLe_of_not_lt hnlt
        · exact nameLe_trans (nameLe_of_not_lt hnlt) (hy z hzys)
      · rw [List.pairwise_cons]
        exact ⟨hy, hys⟩

theorem sortByName_pairwise :
    ∀ l : List Entry, (sortByName l).Pairwise (fun a b => nameLe a b = true)
  | [] => by simp [sortByName]
  | x :: xs => insertByName_pairwise x _ (sortByName_pairwise xs)

/-! ### Pruning commutes with sorting -/

theorem pruneEntry_name (ps : List String) (base : String) :
    ∀ e : Entry, Entry.name (pruneEntry ps base e) = Entry.name e
  | .file _ => by simp [pruneEntry]
  | .dir _ _ => by simp [pruneEntry, Entry.name]
  | .errdir _ _ => by simp [pruneEntry]

theorem mem_pruneList_name (ps : List String) (base : String) {z : Entry} :
    ∀ {l : List Entry}, z ∈ pruneList ps base l →
      ∃ w ∈ l, Entry.name z = Entry.name w
  | [], h => by simp [pruneList] at h
  | e :: rest, h => by
    by_cases hig : should_ignore (childPath base (Entry.name e)) ps = true
    · rw [show pruneList ps base (e :: rest) = pruneList ps base rest from by
        simp [pruneList, hig]] at h
      obtain ⟨w, hw, hn⟩ := mem_pruneList_name ps base h
      exact ⟨w, List.mem_cons_of_mem _ hw, hn⟩
    · rw [Bool.not_eq_true] at hig
      rw [show pruneList ps base (e :: rest)
          = pruneEntry ps base e :: pruneList ps base rest from by
        simp [pruneList, hig]] at h
      rcases List.mem_cons.mp h with hz | hz
      · exact ⟨e, List.mem_cons_self _ _, by rw [hz, pruneEntry_name]⟩
      · obtain ⟨w, hw, hn⟩ := mem_pruneList_name ps base hz
        exact ⟨w, List.mem_cons_of_mem _ hw, hn⟩

theorem nameLt_congr {a b a' b' : Entry} (ha : Entry.name a = Entry.name a')
    (hb : Entry.name b = Entry.name b') : nameLt a b = nameLt a' b' := by
  simp [nameLt, ha, hb]

theorem insertByName_eq_cons {x : Entry} :
    ∀ {M : List Entry}, (∀ z ∈ M, nameLt z x = false) →
      insertByName x M = x :: M
  | [], _ => rfl
  | y :: ys, h => by
    have hy := h y (List.mem_cons_self _ _)
    simp [insertByName, hy]

theorem pruneList_insert (ps : List String) (base : String) {x : Entry}
    (hkeep : should_ignore (childPath base (Entry.name x)) ps = false) :
    ∀ {L : List Entry}, L.Pairwise (fun a b => nameLe a b = true) →
      pruneList ps base (insertByName x L)
        = insertByName (pruneEntry ps base x) (pruneList ps base L)
  | [], _ => by simp [insertByName, pruneList, pruneEntry_name, hkeep]
  | y :: ys, h => by
    rw [List.pairwise_cons] at h
    obtain ⟨hy, hys⟩ := h
    by_cases hlt : nameLt y x = true
    · rw [show insertByName x (y :: ys) = y :: insertByName x ys from by
        simp [insertByName, hlt]]
      by_cases hky : should_ignore (childPath base (Entry.name y)) ps = true
      · rw [show pruneList ps base (y :: insertByName x ys)
            = pruneList ps base (insertByName x ys) from by
          simp [pruneList, hky]]
        rw [show pruneList ps base (y :: ys) = pruneList ps base ys from by
          simp [pruneList, hky]]
        exact pruneList_insert ps base hkeep hys
      · rw [Bool.not_eq_true] at hky
        rw [show pruneList ps base (y :: insertByName x ys)
            = pruneEntry ps base y :: pruneList ps base (insertByName x ys) from by
          simp [pruneList, hky]]
        rw [show pruneList ps base (y :: ys)
            = pruneEntry ps base y :: pruneList ps base ys from by
          simp [pruneList, hky]]
        rw [pruneList_insert ps base hkeep hys]
        have hlt' : nameLt (pruneEntry ps base y) (pruneEntry ps base x) = true := by
          rw [nameLt_congr (pruneEntry_name ps base y) (pruneEntry_name ps base x)]
          exact hlt
        rw [show insertByName (pruneEntry ps base x)
              (pruneEntry ps base y :: pruneList ps base ys)
            = pruneEntry ps base y
              :: insertByName (pruneEntry ps base x) (pruneList ps base ys) from by
          simp [insertByName, hlt']]
    · rw [Bool.not_eq_true] at hlt
      rw [show insertByName x (y :: ys) = x :: y :: ys from by
        simp [insertByName, hlt]]
      rw [show pruneList ps base (x :: y :: ys)
          = pruneEntry ps base x :: pruneList ps base (y :: ys) from by
        simp [pruneList, hkeep]]
      have hall : ∀ z ∈ pruneList ps base (y :: ys),
          nameLt z (pruneEntry ps base x) = false := by
        intro z hz
        obtain ⟨w, hw, hn⟩ := mem_pruneList_name ps base hz
        have hwx : nameLt w x = false := by
          rcases List.mem_cons.mp hw with hwy | hwys
          · rw [hwy]; exact hlt
          · have h1 := hy w hwys
            simp only [nameLe, Bool.not_eq_true'] at h1
            exact charsLt_nlt_trans hlt h1
        simp only [nameLt, pruneEntry_name, hn]
        simpa [nameLt] using hwx
      rw [insertByName_eq_cons hall]

theorem pruneList_insert_ignored (ps : List String) (base : String)
    {x : Entry}
    (hx : should_ignore (childPath base (Entry.name x)) ps = true) :
    ∀ L : List Entry,
      pruneList ps base (insertByName x L) = pruneList ps base L
  | [] => by simp [insertByName, pruneList, hx]
  | y :: ys => by
    by_cases hlt : nameLt y x = true
    · rw [show insertByName x (y :: ys) = y :: insertByName x ys from by
        simp [insertByName, hlt]]
      by_cases hky : should_ignore (childPath base (Entry.name y)) ps = true
      · simp only [show ∀ M, pruneList ps base (y :: M) = pruneList ps base M from
          fun M => by simp [pruneList, hky]]
        exact pruneList_insert_ignored ps base hx ys
      · rw [Bool.not_eq_true] at hky
        simp only [show ∀ M, pruneList ps base (y :: M)
            = pruneEntry ps base y :: pruneList ps base M from
          fun M => by simp [pruneList, hky]]
        rw [pruneList_insert_ignored ps base hx ys]
    · rw [Bool.not_eq_true] at hlt
      rw [show insertByName x (y :: ys) = x :: y :: ys from by
        simp [insertByName, hlt]]
      simp [pruneList, hx]

theorem sortByName_pruneList (ps : List String) (base : String) :
    ∀ l : List Entry,
      sortByName (pruneList ps base l) = pruneList ps base (sortByName l)
  | [] => rfl
  | x :: xs => by
    by_cases hkeep : should_ignore (childPath base (Entry.name x)) ps = true
    · rw [show pruneList ps base (x :: xs) = pruneList ps base xs from by
        simp [pruneList, hkeep]]
      rw [sortByName_pruneList ps base xs]
      rw [show sortByName (x :: xs) = insertByName x (sortByName xs) from rfl]
      rw [pruneList_insert_ignored ps base hkeep]
    · rw [Bool.not_eq_true] at hkeep
      rw [show pruneList ps base (x :: xs)
          = pruneEntry ps base x :: pruneList ps base xs from by
        simp [pruneList, hkeep]]
      rw [show sortByName (pruneEntry ps base x :: pruneList ps base xs)
          = insertByName (pruneEntry ps base x) (sortByName (pruneList ps base xs))
          from rfl]
      rw [sortByName_pruneList ps base xs]
      rw [show sortByName (x :: xs) = insertByName x (sortByName xs) from rfl]
      rw [pruneList_insert ps base hkeep (sortByName_pairwise xs)]

/-! ### Rendering ignores pruned entries -/

mutual
theorem renderItems_prune (ps : List String) (md cd : Nat) (base : String) :
    ∀ l : List Entry,
      renderItems ps md cd base l
        = renderItems ps md cd base (pruneList ps base l)
  | [] => by simp [pruneList]
  | e :: rest => by
    cases e with
    | file n =>
      by_cases hig : should_ignore (childPath base n) ps = true
      · rw [renderItems_cons_ignored ps md cd base _ rest
          (by simpa [Entry.name] using hig)]
        rw [show pruneList ps base (Entry.file n :: rest)
            = pruneList ps base rest from by
          simp [pruneList, Entry.name, hig]]
        exact renderItems_prune ps md cd base rest
      · rw [Bool.not_eq_true] at hig
        rw [show pruneList ps base (Entry.file n :: rest)
            = Entry.file n :: pruneList ps base rest from by
          simp [pruneList, pruneEntry, Entry.name, hig]]
        rw [renderItems_cons_file ps md cd base n rest hig,
          renderItems_cons_file ps md cd base n _ hig,
          renderItems_prune ps md cd base rest]
    | dir n ch =>
      by_cases hig : should_ignore (childPath base n) ps = true
      · rw [renderItems_cons_ignored ps md cd base _ rest
          (by simpa [Entry.name] using hig)]
        rw [show pruneList ps base (Entry.dir n ch :: rest)
            = pruneList ps base rest from by
          simp [pruneList, Entry.name, hig]]
        exact renderItems_prune ps md cd base rest
      · rw [Bool.not_eq_true] at hig
        rw [show pruneList ps base (Entry.dir n ch :: rest)
            = Entry.dir n (pruneList ps (childPath base n) ch)
              :: pruneList ps base rest from by
          simp [pruneList, pruneEntry, Entry.name, hig]]
        rw [renderItems_cons_dir ps md cd base n ch rest hig,
          renderItems_cons_dir ps md cd base n _ _ hig,
          ← renderDirListing_prune ps md (cd + 1) (childPath base n) ch,
          ← renderItems_prune ps md cd base rest]
    | errdir n fe =>
      by_cases hig : should_ignore (childPath base n) ps = true
      · rw [renderItems_cons_ignored ps md cd base _ rest
          (by simpa [Entry.name] using hig)]
        rw [show pruneList ps base (Entry.errdir n fe :: rest)
            = pruneList ps base rest from by
          simp [pruneList, Entry.name, hig]]
        exact renderItems_prune ps md cd base rest
      · rw [Bool.not_eq_true] at hig
        rw [show pruneList ps base (Entry.errdir n fe :: rest)
            = Entry.errdir n fe :: pruneList ps base rest from by
          simp [pruneList, pruneEntry, Entry.name, hig]]
        rw [renderItems_cons_errdir ps md cd base n fe rest hig,
          renderItems_cons_errdir ps md cd base n fe _ hig,
          ← renderItems_prune ps md cd base rest]
termination_by l => 2 * sizeOf l + 1
decreasing_by
  all_goals simp_wf
  all_goals omega

theorem renderDirListing_prune (ps : List String) (md cd : Nat)
    (base : String) (ch : List Entry) :
    renderDirListing ps md cd base (.ok ch)
      = renderDirListing ps md cd base (.ok (pruneList ps base ch)) := by
  by_cases hd : md ≤ cd
  · rw [renderDirListing_depth ps base _ hd, renderDirListing_depth ps base _ hd]
  · have hlt : cd < md := by omega
    rw [renderDirListing_ok ps base ch hlt, renderDirListing_ok ps base _ hlt]
    rw [renderItems_prune ps md cd base (sortByName ch)]
    rw [sortByName_pruneList ps base ch]
termination_by 2 * sizeOf ch + 2
decreasing_by
  all_goals simp_wf
  all_goals try simp only [sizeOf_sortByName]
  all_goals omega
end

/-! ### Rendering is insensitive to structure below the depth cutoff -/

theorem truncEntry_name :
    ∀ (k : Nat) (e : Entry), Entry.name (truncEntry k e) = Entry.name e
  | _, .file _ => by simp [truncEntry]
  | _, .dir _ _ => by simp [truncEntry, Entry.name]
  | _, .errdir _ _ => by simp [truncEntry]

theorem truncList_succ_map (k : Nat) :
    ∀ l : List Entry, truncList (k + 1) l = l.map (truncEntry k)
  | [] => by simp [truncList]
  | e :: rest => by
    rw [show truncList (k + 1) (e :: rest)
        = truncEntry k e :: truncList (k + 1) rest from by simp [truncList]]
    rw [truncList_succ_map k rest, List.map_cons]

theorem insertByName_map (g : Entry → Entry)
    (hg : ∀ e, Entry.name (g e) = Entry.name e) (x : Entry) :
    ∀ l : List Entry, insertByName (g x) (l.map g) = (insertByName x l).map g
  | [] => by simp [insertByName]
  | y :: ys => by
    have hc : nameLt (g y) (g x) = nameLt y x := nameLt_congr (hg y) (hg x)
    by_cases hlt : nameLt y x = true
    · rw [show insertByName x (y :: ys) = y :: insertByName x ys from by
        simp [insertByName, hlt]]
      rw [List.map_cons, List.map_cons]
      rw [show insertByName (g x) (g y :: List.map g ys)
          = g y :: insertByName (g x) (List.map g ys) from by
        simp [insertByName, hc, hlt]]
      rw [insertByName_map g hg x ys]
    · rw [Bool.not_eq_true] at hlt
      rw [show insertByName x (y :: ys) = x :: y :: ys from by
        simp [insertByName, hlt]]
      rw [List.map_cons]
      rw [show insertByName (g x) (g y :: List.map g ys)
          = g x :: g y :: List.map g ys from by
        simp [insertByName, hc, hlt]]
      simp

theorem sortByName_map (g : Entry → Entry)
    (hg : ∀ e, Entry.name (g e) = Entry.name e) :
    ∀ l : List Entry, sortByName (l.map g) = (sortByName l).map g
  | [] => rfl
  | x :: xs => by
    rw [List.map_cons]
    rw [show sortByName (g x :: List.map g xs)
        = insertByName (g x) (sortByName (List.map g xs)) from rfl]
    rw [sortByName_map g hg xs]
    rw [insertByName_map g hg x]
    rfl

mutual
theorem renderItems_trunc (ps : List String) (md cd : Nat) (base : String)
    (h : cd < md) :
    ∀ l : List Entry,
      renderItems ps md cd base l
        = renderItems ps md cd base (truncList (md - cd) l)
  | [] => by
    obtain ⟨k, hk⟩ : ∃ k, md - cd = k + 1 := ⟨md - cd - 1, by omega⟩
    rw [hk]
    simp [truncList]
  | e :: rest => by
    obtain ⟨k, hk⟩ : ∃ k, md - cd = k + 1 := ⟨md - cd - 1, by omega⟩
    rw [hk]
    rw [show truncList (k + 1) (e :: rest)
        = truncEntry k e :: truncList (k + 1) rest from by simp [truncList]]
    cases e with
    | file n =>
      rw [show truncEntry k (Entry.file n) = Entry.file n from by
        simp [truncEntry]]
      by_cases hig : should_ignore (childPath base n) ps = true
      · rw [renderItems_cons_ignored ps md cd base _ rest
          (by simpa [Entry.name] using hig),
          renderItems_cons_ignored ps md cd base _ _
          (by simpa [Entry.name] using hig)]
        rw [← hk]
        exact renderItems_trunc ps md cd base h rest
      · rw [Bool.not_eq_true] at hig
        rw [renderItems_cons_file ps md cd base n rest hig,
          renderItems_cons_file ps md cd base n _ hig]
        rw [← hk, ← renderItems_trunc ps md cd base h rest]
    | dir n ch =>
      rw [show truncEntry k (Entry.dir n ch) = Entry.dir n (truncList k ch) from by
        simp [truncEntry]]
      by_cases hig : should_ignore (childPath base n) ps = true
      · rw [renderItems_cons_ignored ps md cd base _ rest
          (by simpa [Entry.name] using hig),
          renderItems_cons_ignored ps md cd base _ _
          (by simpa [Entry.name] using hig)]
        rw [← hk]
        exact renderItems_trunc ps md cd base h rest
      · rw [Bool.not_eq_true] at hig
        rw [renderItems_cons_dir ps md cd base n ch rest hig,
          renderItems_cons_dir ps md cd base n _ _ hig]
        have hsub := renderDirListing_trunc ps md (cd + 1) (childPath base n) ch
        have hk' : md - (cd + 1) = k := by omega
        rw [hk'] at hsub
        rw [← hsub, ← hk, ← renderItems_trunc ps md cd base h rest]
    | errdir n fe =>
      rw [show truncEntry k (Entry.errdir n fe) = Entry.errdir n fe from by
        simp [truncEntry]]
      by_cases hig : should_ignore (childPath base n) ps = true
      · rw [renderItems_cons_ignored ps md cd base _ rest
          (by simpa [Entry.name] using hig),
          renderItems_cons_ignored ps md cd base _ _
          (by simpa [Entry.name] using hig)]
        rw [← hk]
        exact renderItems_trunc ps md cd base h rest
      · rw [Bool.not_eq_true] at hig
        rw [renderItems_cons_errdir ps md cd base n fe rest hig,
          renderItems_cons_errdir ps md cd base n fe _ hig]
        rw [← hk, ← renderItems_trunc ps md cd base h rest]
termination_by l => 2 * sizeOf l + 1
decreasing_by
  all_goals simp_wf
  all_goals omega

theorem renderDirListing_trunc (ps : List String) (md cd : Nat)
    (base : String) (ch : List Entry) :
    renderDirListing ps md cd base (.ok ch)
      = renderDirListing ps md cd base (.ok (truncList (md - cd) ch)) := by
  by_cases hd : md ≤ cd
  · rw [renderDirListing_depth ps base _ hd, renderDirListing_depth ps base _ hd]
  · have hlt : cd < md := by omega
    rw [renderDirListing_ok ps base ch hlt, renderDirListing_ok ps base _ hlt]
    obtain ⟨k, hk⟩ : ∃ k, md - cd = k + 1 := ⟨md - cd - 1, by omega⟩
    rw [hk, truncList_succ_map k ch, sortByName_map (truncEntry k) (truncEntry_name k) ch,
      ← truncList_succ_map k (sortByName ch), ← hk,
      ← renderItems_trunc ps md cd base hlt (sortByName ch)]
termination_by 2 * sizeOf ch + 2
decreasing_by
  all_goals simp_wf
  all_goals try simp only [sizeOf_sortByName]
  all_goals omega
end

/-! ### The only error the renderer ever returns is the non-permission one -/

mutual
theorem renderItems_no_perm (ps : List String) (md cd : Nat) (base : String) :
    ∀ (l : List Entry) (e' : FSError),
      renderItems ps md cd base l = .error e' → e' = .other
  | [], e' => by
    rw [renderItems_nil]
    intro h
    cases h
  | e :: rest, e' => by
    intro h
    cases e with
    | file n =>
      by_cases hig : should_ignore (childPath base n) ps = true
      · rw [renderItems_cons_ignored ps md cd base _ rest
          (by simpa [Entry.name] using hig)] at h
        exact renderItems_no_perm ps md cd base rest e' h
      · rw [Bool.not_eq_true] at hig
        rw [renderItems_cons_file ps md cd base n rest hig] at h
        cases hr : renderItems ps md cd base rest with
        | error er =>
          rw [hr] at h
          cases h
          exact renderItems_no_perm ps md cd base rest e' hr
        | ok items => rw [hr] at h; cases h
    | dir n ch =>
      by_cases hig : should_ignore (childPath base n) ps = true
      · rw [renderItems_cons_ignored ps md cd base _ rest
          (by simpa [Entry.name] using hig)] at h
        exact renderItems_no_perm ps md cd base rest e' h
      · rw [Bool.not_eq_true] at hig
        rw [renderItems_cons_dir ps md cd base n ch rest hig] at h
        cases hs : renderDirListing ps md (cd + 1) (childPath base n) (.ok ch) with
        | error er =>
          rw [hs] at h
          cases h
          exact renderDirListing_no_perm ps md (cd + 1) (childPath base n)
            (.ok ch) e' hs
        | ok sub =>
          rw [hs] at h
          cases hr : renderItems ps md cd base rest with
          | error er =>
            rw [hr] at h
            cases h
            exact renderItems_no_perm ps md cd base rest e' hr
          | ok items => rw [hr] at h; cases h
    | errdir n fe =>
      by_cases hig : should_ignore (childPath base n) ps = true
      · rw [renderItems_cons_ignored ps md cd base _ rest
          (by simpa [Entry.name] using hig)] at h
        exact renderItems_no_perm ps md cd base rest e' h
      · rw [Bool.not_eq_true] at hig
        rw [renderItems_cons_errdir ps md cd base n fe rest hig] at h
        cases hs : renderDirListing ps md (cd + 1) (childPath base n) (.error fe) with
        | error er =>
          rw [hs] at h
          cases h
          exact renderDirListing_no_perm ps md (cd + 1) (childPath base n)
            (.error fe) e' hs
        | ok sub =>
          rw [hs] at h
          cases hr : renderItems ps md cd base rest with
          | error er =>
            rw [hr] at h
            cases h
            exact renderItems_no_perm ps md cd base rest e' hr
          | ok items => rw [hr] at h; cases h
termination_by l => 2 * sizeOf l + 1
decreasing_by
  all_goals simp_wf
  all_goals omega

theorem renderDirListing_no_perm (ps : List String) (md cd : Nat)
    (base : String) :
    ∀ (listing : Except FSError (List Entry)) (e' : FSError),
      renderDirListing ps md cd base listing = .error e' → e' = .other
  | listing, e' => by
    intro h
    by_cases hd : md ≤ cd
    · rw [renderDirListing_depth ps base listing hd] at h
      cases h
    · have hlt : cd < md := by omega
      match listing with
      | .error .permission =>
        rw [renderDirListing_permission ps base hlt] at h
        cases h
      | .error .other =>
        rw [renderDirListing_error_other ps base hlt] at h
        cases h
        rfl
      | .ok entries =>
        rw [renderDirListing_ok ps base entries hlt] at h
        cases hr : renderItems ps md cd base (sortByName entries) with
        | error er =>
          rw [hr] at h
          cases h
          exact renderItems_no_perm ps md cd base (sortByName entries) e' hr
        | ok items => rw [hr] at h; cases h
termination_by listing =>
  (match listing with | .ok l => 2 * sizeOf l + 2 | .error _ => 0)
decreasing_by
  all_goals simp_wf
  all_goals try simp only [sizeOf_sortByName]
  all_goals omega
end

/-- A non-ignored unlistable-for-other-reasons subdirectory inside a level
makes the whole level's rendering fail with the propagated error. -/
theorem renderItems_error_of_mem (ps : List String) (md cd : Nat)
    (base n : String) (hd : cd + 1 < md)
    (hig : should_ignore (childPath base n) ps = false) :
    ∀ l : List Entry, Entry.errdir n .other ∈ l →
      renderItems ps md cd base l = .error .other
  | [], hmem => by simp at hmem
  | e :: rest, hmem => by
    rcases List.mem_cons.mp hmem with he | hrest
    · rw [← he]
      rw [renderItems_cons_errdir ps md cd base n .other rest hig]
      rw [renderDirListing_error_other ps (childPath base n) (by omega)]
    · have ih := renderItems_error_of_mem ps md cd base n hd hig rest hrest
      cases e with
      | file m =>
        by_cases hig2 : should_ignore (childPath base m) ps = true
        · rw [renderItems_cons_ignored ps md cd base _ rest
            (by simpa [Entry.name] using hig2)]
          exact ih
        · rw [Bool.not_eq_true] at hig2
          rw [renderItems_cons_file ps md cd base m rest hig2, ih]
      | dir m ch =>
        by_cases hig2 : should_ignore (childPath base m) ps = true
        · rw [renderItems_cons_ignored ps md cd base _ rest
            (by simpa [Entry.name] using hig2)]
          exact ih
        · rw [Bool.not_eq_true] at hig2
          rw [renderItems_cons_dir ps md cd base m ch rest hig2]
          cases hs : renderDirListing ps md (cd + 1) (childPath base m) (.ok ch) with
          | error er =>
            rw [renderDirListing_no_perm ps md (cd + 1) (childPath base m)
              (.ok ch) er hs]
          | ok sub => rw [ih]
      | errdir m fe =>
        by_cases hig2 : should_ignore (childPath base m) ps = true
        · rw [renderItems_cons_ignored ps md cd base _ rest
            (by simpa [Entry.name] using hig2)]
          exact ih
        · rw [Bool.not_eq_true] at hig2
          rw [renderItems_cons_errdir ps md cd base m fe rest hig2]
          cases hs : renderDirListing ps md (cd + 1) (childPath base m) (.error fe) with
          | error er =>
            rw [renderDirListing_no_perm ps md (cd + 1) (childPath base m)
              (.error fe) er hs]
          | ok sub => rw [ih]

/-! ### The reported count is one more than the token count -/

theorem splitFirst_length (p : Char) (cs : List Char) :
    ∀ (s a b : List Char), splitFirst (p :: cs) s = some (a, b) →
      b.length < s.length
  | [] => by intro a b h; simp [splitFirst] at h
  | c :: rest => by
    intro a b h
    by_cases hl : leadsWith (p :: cs) (c :: rest) = true
    · simp [splitFirst, hl] at h
      obtain ⟨_, hb⟩ := h
      rw [← hb]
      simp [List.length_drop]
      omega
    · simp only [splitFirst, hl, Bool.false_eq_true, if_false] at h
      cases hs : splitFirst (p :: cs) rest with
      | none => rw [hs] at h; cases h
      | some pr =>
        obtain ⟨a', b'⟩ := pr
        rw [hs] at h
        simp only [Option.some.injEq, Prod.mk.injEq] at h
        obtain ⟨ha, hb⟩ := h
        have := splitFirst_length p cs rest a' b' hs
        rw [← hb]
        simp only [List.length_cons]
        omega

theorem pySplitAux_countOccAux (p : Char) (cs : List Char) :
    ∀ (fuel : Nat) (s : List Char), s.length < fuel →
      (pySplitAux (p :: cs) fuel s).length = countOccAux (p :: cs) fuel s + 1
  | 0, s => by intro h; omega
  | fuel + 1, s => by
    intro h
    cases hs : splitFirst (p :: cs) s with
    | none => simp [pySplitAux, countOccAux, hs]
    | some pr =>
      obtain ⟨a, b⟩ := pr
      have hb := splitFirst_length p cs s a b hs
      simp only [pySplitAux, countOccAux, hs, List.length_cons]
      rw [pySplitAux_countOccAux p cs fuel b (by omega)]

theorem reportedFileCount_eq_tokens_succ (s : String) :
    reportedFileCount s = fileTokenCount s + 1 := by
  unfold reportedFileCount fileTokenCount pySplit countOcc
  rw [show ("<file").data
      = '<' :: ['f', 'i', 'l', 'e'] from rfl]
  exact pySplitAux_countOccAux '<' ['f', 'i', 'l', 'e']
    (s.data.length + 1) s.data (by omega)

/-! ### The watcher's walk is the fold of its visit list -/

theorem processList_append :
    ∀ (L1 L2 : List (String × Option Nat)) (st : MTable × Bool),
      processList (L1 ++ L2) st = processList L2 (processList L1 st)
  | [], L2, st => rfl
  | (p, m) :: rest, L2, st => by
    simp only [List.cons_append, processList]
    exact processList_append rest L2 (processFile st p m)

theorem processFiles_eq (base : String) :
    ∀ (l : List WTree) (st : MTable × Bool),
      processFiles base l st = processList (filesOf base l) st
  | [], st => rfl
  | .wfile n m :: rest, st => by
    simp only [processFiles, filesOf, processList]
    exact processFiles_eq base rest _
  | .wdir n ch :: rest, st => by
    simp only [processFiles, filesOf]
    exact processFiles_eq base rest st
  | .werrdir n :: rest, st => by
    simp only [processFiles, filesOf]
    exact processFiles_eq base rest st

mutual
theorem walkDirs_eq (base : String) :
    ∀ (l : List WTree) (st : MTable × Bool),
      walkDirs base l st = processList (visitedDirs base l) st
  | [], st => by simp [walkDirs, visitedDirs, processList]
  | .wfile n m :: rest, st => by
    rw [show walkDirs base (.wfile n m :: rest) st = walkDirs base rest st from by
      simp [walkDirs]]
    rw [show visitedDirs base (.wfile n m :: rest) = visitedDirs base rest from by
      simp [visitedDirs]]
    exact walkDirs_eq base rest st
  | .wdir n ch :: rest, st => by
    by_cases hp : pruneNames.contains n = true
    · rw [show walkDirs base (.wdir n ch :: rest) st = walkDirs base rest st from by
        simp only [walkDirs, hp]; simp]
      rw [show visitedDirs base (.wdir n ch :: rest) = visitedDirs base rest from by
        simp only [visitedDirs, hp]; simp]
      exact walkDirs_eq base rest st
    · rw [Bool.not_eq_true] at hp
      rw [show walkDirs base (.wdir n ch :: rest) st
          = walkDirs base rest (walkContents (osJoin base n) ch st) from by
        simp only [walkDirs, hp]; simp]
      rw [show visitedDirs base (.wdir n ch :: rest)
          = visitedContents (osJoin base n) ch ++ visitedDirs base rest from by
        simp only [visitedDirs, hp]; simp]
      rw [processList_append]
      rw [walkContents_eq (osJoin base n) ch st]
      exact walkDirs_eq base rest _
  | .werrdir n :: rest, st => by
    rw [show walkDirs base (.werrdir n :: rest) st = walkDirs base rest st from by
      simp [walkDirs]]
    rw [show visitedDirs base (.werrdir n :: rest) = visitedDirs base rest from by
      simp [visitedDirs]]
    exact walkDirs_eq base rest st
termination_by l => 2 * sizeOf l
decreasing_by
  all_goals simp_wf
  all_goals omega

theorem walkContents_eq (base : String) (l : List WTree) (st : MTable × Bool) :
    walkContents base l st = processList (visitedContents base l) st := by
  rw [show walkContents base l st = walkDirs base l (processFiles base l st) from by
    simp [walkContents]]
  rw [show visitedContents base l = filesOf base l ++ visitedDirs base l from by
    simp [visitedContents]]
  rw [processList_append, processFiles_eq base l st]
  exact walkDirs_eq base l _
termination_by 2 * sizeOf l + 1
decreasing_by
  all_goals simp_wf
end

theorem pollRoots_eq (fs : String → Option (List WTree)) :
    ∀ (ds : List String) (st : MTable × Bool),
      pollRoots fs ds st = processList (visitedPoll fs ds) st
  | [], _ => rfl
  | d :: rest, st => by
    cases hfd : fs d with
    | none =>
      simp only [pollRoots, visitedPoll, hfd, List.nil_append]
      exact pollRoots_eq fs rest st
    | some l =>
      simp only [pollRoots, visitedPoll, hfd]
      rw [processList_append, walkContents_eq d l st]
      exact pollRoots_eq fs rest _

/-! ### The changed flag fires exactly on a new or updated timestamp -/

theorem processFile_flag_true (st : MTable × Bool) (p : String)
    (m : Option Nat) (h : st.2 = true) : (processFile st p m).2 = true := by
  cases m with
  | none => simpa [processFile] using h
  | some mv =>
    by_cases hl : lookupT st.1 p = some mv
    · simpa [processFile, hl] using h
    · simp [processFile, hl]

theorem processList_flag_true :
    ∀ (L : List (String × Option Nat)) (st : MTable × Bool),
      st.2 = true → (processList L st).2 = true
  | [], _, h => h
  | (p, m) :: rest, st, h =>
    processList_flag_true rest _ (processFile_flag_true st p m h)

theorem processList_flag (t : MTable) :
    ∀ L : List (String × Option Nat),
      (processList L (t, false)).2 = L.any (fires t)
  | [] => by simp [processList]
  | (p, m) :: rest => by
    cases m with
    | none =>
      simp only [processList, processFile, List.any_cons, fires,
        Bool.false_or]
      exact processList_flag t rest
    | some mv =>
      by_cases hl : lookupT t p = some mv
      · simp only [processList, processFile, hl, if_pos, List.any_cons, fires,
          decide_eq_true_eq]
        rw [processList_flag t rest]
        simp [hl]
      · simp only [processList, processFile, hl, if_neg, List.any_cons, fires]
        rw [processList_flag_true rest _ rfl]
        simp [hl]

/-! ### The modification-time table never loses a key -/

theorem lookupT_setT :
    ∀ (t : MTable) (p : String) (v : Nat) (k : String),
      lookupT (setT t p v) k = if p = k then some v else lookupT t k
  | [], p, v, k => by simp [setT, lookupT]
  | (k0, v0) :: rest, p, v, k => by
    by_cases h0 : k0 = p
    · subst h0
      rw [show setT ((k0, v0) :: rest) k0 v = (k0, v) :: rest from by
        simp [setT]]
      by_cases hk : k0 = k
      · subst hk; simp [lookupT]
      · simp [lookupT, hk]
    · rw [show setT ((k0, v0) :: rest) p v = (k0, v0) :: setT rest p v from by
        simp [setT, h0]]
      by_cases hk : k0 = k
      · subst hk
        have hpk : ¬ p = k0 := fun he => h0 he.symm
        simp [lookupT, hpk]
      · simp [lookupT, hk, lookupT_setT rest p v k]

theorem processFile_keys (st : MTable × Bool) (p : String) (m : Option Nat)
    (k : String) (h : (lookupT st.1 k).isSome = true) :
    (lookupT (processFile st p m).1 k).isSome = true := by
  cases m with
  | none => simpa [processFile] using h
  | some mv =>
    by_cases hl : lookupT st.1 p = some mv
    · simpa [processFile, hl] using h
    · simp only [processFile, if_neg hl]
      rw [lookupT_setT st.1 p mv k]
      by_cases hp : p = k
      · simp [hp]
      · simpa [hp] using h

theorem processList_keys :
    ∀ (L : List (String × Option Nat)) (st : MTable × Bool) (k : String),
      (lookupT st.1 k).isSome = true →
      (lookupT (processList L st).1 k).isSome = true
  | [], _, _, h => h
  | (p, m) :: rest, st, k, h =>
    processList_keys rest _ k (processFile_keys st p m k h)

/-! ### Claims -/

/-- C1: for every directory tree and every ignore-pattern set, any entry
whose path string contains any ignore pattern as a substring is skipped
entirely — the rendering of a listing equals the rendering of the listing
with every ignored entry (and, recursively, every ignored descendant)
removed, so neither such an entry nor anything below it can appear in the
output. -/
theorem claim_C1_ignored_entries_skipped (ps : List String) (md cd : Nat)
    (base : String) (entries : List Entry) :
    renderDirListing ps md cd base (.ok entries)
      = renderDirListing ps md cd base (.ok (pruneList ps base entries)) :=
  renderDirListing_prune ps md cd base entries

/-- C2: in every single polling iteration, the generator subprocess is
invoked exactly once when some file visited by the walk has a readable
timestamp that is new to the table or differs from the recorded one, and
is not invoked at all otherwise. -/
theorem claim_C2_invocation_iff_change (fs : String → Option (List WTree))
    (t : MTable) :
    iterationInvocations fs t
      = if (visitedPoll fs watchDirs).any (fires t) = true then 1 else 0 := by
  unfold iterationInvocations
  rw [show (pollStep fs t).2 = (visitedPoll fs watchDirs).any (fires t) from by
    unfold pollStep
    rw [pollRoots_eq fs watchDirs (t, false)]
    exact processList_flag t (visitedPoll fs watchDirs)]

/-- C3 counterexample: on the rendered text of a single-file tree the
`<file` token appears once, yet the summary number computed by `main()`
(`len(structure.split('<file'))`) is `2`, so the emitted count is not the
number of `<file` tokens. -/
theorem claim_C3_counterexample :
    renderDirListing defaultIgnorePatterns 10 0 "." (.ok [Entry.file "a.ts"])
      = .ok (fileTag "a.ts")
    ∧ fileTokenCount (fileTag "a.ts") = 1
    ∧ reportedFileCount (fileTag "a.ts") = 2 := by
  refine ⟨?_, by decide, by decide⟩
  rw [renderDirListing_ok defaultIgnorePatterns "." [Entry.file "a.ts"]
    (by omega)]
  rw [show sortByName [Entry.file "a.ts"] = [Entry.file "a.ts"] from rfl]
  rw [renderItems_cons_file defaultIgnorePatterns 10 0 "." "a.ts" []
    (by decide)]
  rw [renderItems_nil]
  simp [intercalate_single]

/-- C3 amended: the summary line reports the number of fields produced by
splitting the rendered text on `<file`, which is always one more than the
number of `<file` tokens that appear in it. -/
theorem claim_C3_reported_count (s : String) :
    reportedFileCount s = fileTokenCount s + 1 :=
  reportedFileCount_eq_tokens_succ s

/-- C4 counterexample: the generator delimits attribute values with single
quotes, not double quotes: a file renders as `<file name='a.ts'/>`, which
differs from the double-quoted form the claim states, and an empty folder
renders as `<folder name='docs'/>`. -/
theorem claim_C4_counterexample :
    renderDirListing [] 10 0 "." (.ok [Entry.file "a.ts"]) = .ok (fileTag "a.ts")
    ∧ fileTag "a.ts" = "<file name=" ++ sQuote ++ "a.ts" ++ sQuote ++ "/>"
    ∧ fileTag "a.ts" ≠ "<file name=\"a.ts\"/>"
    ∧ renderDirListing [] 10 0 "." (.ok [Entry.dir "docs" []])
        = .ok (folderSelfTag "docs")
    ∧ folderSelfTag "docs" ≠ "<folder name=\"docs\"/>" := by
  refine ⟨?_, rfl, by decide, ?_, by decide⟩
  · rw [renderDirListing_ok [] "." [Entry.file "a.ts"] (by omega)]
    rw [show sortByName [Entry.file "a.ts"] = [Entry.file "a.ts"] from rfl]
    rw [renderItems_cons_file [] 10 0 "." "a.ts" [] (by decide)]
    rw [renderItems_nil]
    simp [intercalate_single]
  · rw [renderDirListing_ok [] "." [Entry.dir "docs" []] (by omega)]
    rw [show sortByName [Entry.dir "docs" []] = [Entry.dir "docs" []] from rfl]
    rw [renderItems_cons_dir [] 10 0 "." "docs" [] [] (by decide)]
    rw [show renderDirListing [] 10 1 (childPath "." "docs") (.ok [])
        = .ok "" from by
      rw [renderDirListing_ok [] (childPath "." "docs") [] (by omega)]
      rw [show sortByName [] = [] from rfl, renderItems_nil]
      simp [intercalate_nil]]
    rw [renderItems_nil]
    have hc : stripTruthy "" = false := by decide
    simp [folderTag, hc, intercalate_single]

/-- C4 amended: for every non-ignored entry, a file renders as the
self-closing tag `<file name='X'/>` and a directory renders as
`<folder name='X'>` wrapping its children's rendering, or as the
self-closing `<folder name='X'/>` when that rendering is empty (truly
empty, fully ignored, or depth-truncated) — with single-quoted attribute
values. -/
theorem claim_C4_tag_shapes (ps : List String) (md cd : Nat)
    (base n : String) (rest : List Entry) (items : List String)
    (h : should_ignore (childPath base n) ps = false) :
    (renderItems ps md cd base rest = .ok items →
      renderItems ps md cd base (.file n :: rest)
        = .ok (("<file name=" ++ sQuote ++ n ++ sQuote ++ "/>") :: items))
    ∧ ∀ (ch : List Entry) (sub : String),
        renderDirListing ps md (cd + 1) (childPath base n) (.ok ch) = .ok sub →
        renderItems ps md cd base rest = .ok items →
        renderItems ps md cd base (.dir n ch :: rest)
          = .ok ((if stripTruthy sub
              then "<folder name=" ++ sQuote ++ n ++ sQuote ++ ">" ++ "\n"
                ++ sub ++ "</folder>"
              else "<folder name=" ++ sQuote ++ n ++ sQuote ++ "/>")
            :: items) := by
  constructor
  · intro hr
    rw [renderItems_cons_file ps md cd base n rest h, hr]
    rfl
  · intro ch sub hs hr
    rw [renderItems_cons_dir ps md cd base n ch rest h, hs, hr]
    simp [folderTag, folderSelfTag, folderWrapTag]

/-- C4 witness: the file-tag shape at a concrete non-ignored entry. -/
theorem claim_C4_tag_shapes_witness :
    renderItems [] 10 0 "." [Entry.file "a"]
      = .ok [("<file name=" ++ sQuote ++ "a" ++ sQuote ++ "/>")] :=
  (claim_C4_tag_shapes [] 10 0 "." "a" [] [] (by decide)).1
    (renderItems_nil [] 10 0 ".")

/-- C5: recursion invoked at a depth that has reached the configured
maximum returns an empty result (even when the listing would raise), and
rendering a listing is unchanged when everything below the cutoff is
discarded, so ancestors render correctly while all deeper structure is
silently omitted. -/
theorem claim_C5_depth_truncation (ps : List String) (md cd : Nat)
    (base : String) (listing : Except FSError (List Entry))
    (entries : List Entry) :
    (md ≤ cd → renderDirListing ps md cd base listing = .ok "")
    ∧ renderDirListing ps md cd base (.ok entries)
        = renderDirListing ps md cd base (.ok (truncList (md - cd) entries)) :=
  ⟨fun h => renderDirListing_depth ps base listing h,
   renderDirListing_trunc ps md cd base entries⟩

/-- C5 witness: at depth 5 with maximum 2 the renderer returns an empty
result even on a failing listing. -/
theorem claim_C5_depth_truncation_witness :
    renderDirListing defaultIgnorePatterns 2 5 "." (.error .other) = .ok "" :=
  (claim_C5_depth_truncation defaultIgnorePatterns 2 5 "."
    (.error .other) []).1 (by omega)

/-- C6: a directory listing failing with a permission error is treated as
having no children, silently; a listing failing with any other error
propagates that error, and a non-ignored subdirectory whose listing fails
with a non-permission error aborts the whole rendering with that error. -/
theorem claim_C6_permission_only_caught (ps : List String)
    (md cd : Nat) (base n : String) (l : List Entry) :
    (cd < md → renderDirListing ps md cd base (.error .permission) = .ok "")
    ∧ (cd < md → renderDirListing ps md cd base (.error .other) = .error .other)
    ∧ (cd + 1 < md → should_ignore (childPath base n) ps = false →
        Entry.errdir n .other ∈ l →
        renderDirListing ps md cd base (.ok l) = .error .other) := by
  refine ⟨fun h => renderDirListing_permission ps base h,
    fun h => renderDirListing_error_other ps base h, ?_⟩
  intro hd hig hmem
  rw [renderDirListing_ok ps base l (by omega)]
  rw [renderItems_error_of_mem ps md cd base n hd hig (sortByName l)
    ((sortByName_perm l).mem_iff.mpr hmem)]

/-- C6 witness: concrete permission swallowing and error propagation. -/
theorem claim_C6_witness :
    renderDirListing [] 10 0 "." (.error .permission) = .ok ""
    ∧ renderDirListing [] 10 0 "." (.error .other) = .error .other
    ∧ renderDirListing [] 10 0 "." (.ok [Entry.errdir "d" .other])
        = .error .other := by
  obtain ⟨h1, h2, h3⟩ := claim_C6_permission_only_caught [] 10 0 "." "d"
    [Entry.errdir "d" .other]
  exact ⟨h1 (by omega), h2 (by omega), h3 (by omega) (by decide) (by simp)⟩

/-- C7: rendering is a deterministic function of the observed tree (equal
inputs give byte-identical output), the per-level order is a sorted
permutation of the directory listing, and the level's rendering is exactly
the newline-joined concatenation of the sibling renderings in that sorted
order. -/
theorem claim_C7_deterministic_sorted_newlines (ps : List String)
    (md cd : Nat) (base : String) (x y : Except FSError (List Entry))
    (l : List Entry) (items : List String) :
    (x = y → renderDirListing ps md cd base x = renderDirListing ps md cd base y)
    ∧ List.Perm (sortByName l) l
    ∧ (sortByName l).Pairwise (fun a b => nameLe a b = true)
    ∧ (cd < md → renderItems ps md cd base (sortByName l) = .ok items →
        renderDirListing ps md cd base (.ok l)
          = .ok (String.intercalate "\n" items)) := by
  refine ⟨fun h => by rw [h], sortByName_perm l, sortByName_pairwise l, ?_⟩
  intro hlt hr
  rw [renderDirListing_ok ps base l hlt, hr]

/-- C7 witness: the sorted permutation and newline-joined rendering at a
concrete two-file listing. -/
theorem claim_C7_witness :
    renderDirListing [] 10 0 "." (.ok [Entry.file "b", Entry.file "a"])
      = renderDirListing [] 10 0 "." (.ok [Entry.file "b", Entry.file "a"])
    ∧ List.Perm (sortByName [Entry.file "b", Entry.file "a"])
      [Entry.file "b", Entry.file "a"]
    ∧ (sortByName [Entry.file "b", Entry.file "a"]).Pairwise
        (fun a b => nameLe a b = true)
    ∧ renderDirListing [] 10 0 "." (.ok [Entry.file "b", Entry.file "a"])
        = .ok (String.intercalate "\n" [fileTag "a", fileTag "b"]) := by
  obtain ⟨h1, h2, h3, h4⟩ := claim_C7_deterministic_sorted_newlines [] 10 0 "."
    (.ok [Entry.file "b", Entry.file "a"]) (.ok [Entry.file "b", Entry.file "a"])
    [Entry.file "b", Entry.file "a"] [fileTag "a", fileTag "b"]
  refine ⟨h1 rfl, h2, h3, h4 (by omega) ?_⟩
  rw [show sortByName [Entry.file "b", Entry.file "a"]
      = [Entry.file "a", Entry.file "b"] from rfl]
  rw [renderItems_cons_file [] 10 0 "." "a" [Entry.file "b"] (by decide)]
  rw [renderItems_cons_file [] 10 0 "." "b" [] (by decide)]
  rw [renderItems_nil]

/-- C8: the modification-time table starts empty when the watcher process
starts, each iteration produces the next table by one polling step, and a
polling step never removes a path from the table — every recorded key is
still recorded afterwards. -/
theorem claim_C8_table_monotone (fs : String → Option (List WTree))
    (t : MTable) (k : String) (n : Nat)
    (fss : Nat → String → Option (List WTree)) :
    watchRun fss 0 = []
    ∧ watchRun fss (n + 1) = (pollStep (fss n) (watchRun fss n)).1
    ∧ ((lookupT t k).isSome = true →
        (lookupT (pollStep fs t).1 k).isSome = true) := by
  refine ⟨rfl, rfl, ?_⟩
  intro h
  unfold pollStep
  rw [pollRoots_eq fs watchDirs (t, false)]
  exact processList_keys (visitedPoll fs watchDirs) (t, false) k h

/-- C8 witness: a recorded path survives a polling step. -/
theorem claim_C8_table_monotone_witness :
    (lookupT [("src/a.txt", 5)] "src/a.txt").isSome = true
    ∧ (lookupT (pollStep (fun _ => none) [("src/a.txt", 5)]).1
        "src/a.txt").isSome = true := by
  refine ⟨by decide, ?_⟩
  exact (claim_C8_table_monotone (fun _ => none) [("src/a.txt", 5)]
    "src/a.txt" 0 (fun _ _ => none)).2.2 (by decide)

/-- C9: the watcher prunes descent only for subdirectories whose name is
exactly one of `node_modules`, `.git`, `dist`, `build`; a name merely
containing one of these (such as `mybuild`), or a name the generator's
substring ignore list excludes but this list does not (such as `coverage`,
`venv`, `__pycache__`), is still walked, and a timestamp change inside
such a directory triggers a regeneration. -/
theorem claim_C9_prune_exact_names (base n : String) (ch rest : List WTree)
    (st : MTable × Bool) :
    pruneNames = ["node_modules", ".git", "dist", "build"]
    ∧ (pruneNames.contains n = false →
        walkDirs base (.wdir n ch :: rest) st
          = walkDirs base rest (walkContents (osJoin base n) ch st))
    ∧ (pruneNames.contains n = true →
        walkDirs base (.wdir n ch :: rest) st = walkDirs base rest st)
    ∧ pruneNames.contains "mybuild" = false
    ∧ strContains "mybuild" "build" = true
    ∧ should_ignore (childPath "." "mybuild") defaultIgnorePatterns = true
    ∧ (∀ d ∈ (["coverage", "venv", "__pycache__"] : List String),
        pruneNames.contains d = false
        ∧ should_ignore (childPath "." d) defaultIgnorePatterns = true)
    ∧ iterationInvocations
        (fun d => if d = "src"
          then some [WTree.wdir "mybuild" [WTree.wfile "a.txt" (some 5)]]
          else none)
        [("src/mybuild/a.txt", 3)] = 1 := by
  refine ⟨rfl, ?_, ?_, by decide, by decide, by decide, by decide, ?_⟩
  · intro h
    simp only [walkDirs, h]
    simp
  · intro h
    simp only [walkDirs, h]
    simp
  · rw [show iterationInvocations
        (fun d => if d = "src"
          then some [WTree.wdir "mybuild" [WTree.wfile "a.txt" (some 5)]]
          else none)
        [("src/mybuild/a.txt", 3)]
        = if (pollStep (fun d => if d = "src"
            then some [WTree.wdir "mybuild" [WTree.wfile "a.txt" (some 5)]]
            else none) [("src/mybuild/a.txt", 3)]).2 then 1 else 0 from rfl]
    rw [show pollStep (fun d => if d = "src"
        then some [WTree.wdir "mybuild" [WTree.wfile "a.txt" (some 5)]]
        else none) [("src/mybuild/a.txt", 3)]
        = pollRoots (fun d => if d = "src"
            then some [WTree.wdir "mybuild" [WTree.wfile "a.txt" (some 5)]]
            else none) watchDirs ([("src/mybuild/a.txt", 3)], false) from rfl]
    rw [pollRoots_eq]
    rw [show processList
        (visitedPoll (fun d => if d = "src"
          then some [WTree.wdir "mybuild" [WTree.wfile "a.txt" (some 5)]]
          else none) watchDirs) ([("src/mybuild/a.txt", 3)], false)
        = processList [("src/mybuild/a.txt", some 5)]
            ([("src/mybuild/a.txt", 3)], false) from by
      congr 1
      simp [visitedPoll, watchDirs, visitedContents, visitedDirs, filesOf,
        pruneNames, osJoin]]
    simp [processList, processFile, lookupT]

/-- C9 witness: a directory named `mybuild` is walked, not pruned. -/
theorem claim_C9_prune_exact_names_witness :
    walkDirs "src" [WTree.wdir "mybuild" []] ([], false)
      = walkDirs "src" []
          (walkContents (osJoin "src" "mybuild") [] ([], false)) :=
  ((claim_C9_prune_exact_names "src" "mybuild" [] [] ([], false)).2.1)
    (by decide)

/-- C10 counterexample: `build.log` ends in `.log`, yet the generator
ignores it (its path contains the pattern `build`), so a file whose name
merely ends in `.log` is not always rendered. -/
theorem claim_C10_counterexample :
    ("build.log" : String) = "build" ++ ".log"
    ∧ should_ignore (childPath "." "build.log") defaultIgnorePatterns = true
    ∧ renderDirListing defaultIgnorePatterns 10 0 "."
        (.ok [Entry.file "build.log"]) = .ok "" := by
  refine ⟨rfl, by decide, ?_⟩
  rw [renderDirListing_ok defaultIgnorePatterns "." [Entry.file "build.log"]
    (by omega)]
  rw [show sortByName [Entry.file "build.log"] = [Entry.file "build.log"]
    from rfl]
  rw [renderItems_cons_ignored defaultIgnorePatterns 10 0 "."
    (Entry.file "build.log") [] (by decide)]
  rw [renderItems_nil]
  rfl

/-- C10 amended: ignore matching is literal substring containment, so the
pattern `*.log` matches only paths containing the five characters `*.log`;
a `.log` file whose path contains no other pattern, such as `app.log`, is
not ignored and appears in the rendered output, while a `.log` file whose
name contains another pattern (such as `build.log`) is still ignored. -/
theorem claim_C10_literal_star_pattern (s : String) :
    (strContains s "*.log" = false → should_ignore s ["*.log"] = false)
    ∧ should_ignore (childPath "." "app.log") defaultIgnorePatterns = false
    ∧ renderDirListing defaultIgnorePatterns 10 0 "."
        (.ok [Entry.file "app.log"]) = .ok (fileTag "app.log") := by
  refine ⟨?_, by decide, ?_⟩
  · intro h
    simp [should_ignore, h]
  · rw [renderDirListing_ok defaultIgnorePatterns "." [Entry.file "app.log"]
      (by omega)]
    rw [show sortByName [Entry.file "app.log"] = [Entry.file "app.log"]
      from rfl]
    rw [renderItems_cons_file defaultIgnorePatterns 10 0 "." "app.log" []
      (by decide)]
    rw [renderItems_nil]
    simp [intercalate_single]

/-- C10 witness: `app.log` is not matched by the literal `*.log` pattern
and is not ignored by the full pattern list. -/
theorem claim_C10_literal_star_pattern_witness :
    should_ignore "app.log" ["*.log"] = false
    ∧ should_ignore (childPath "." "app.log") defaultIgnorePatterns = false := by
  obtain ⟨h1, h2, _⟩ := claim_C10_literal_star_pattern "app.log"
  exact ⟨h1 (by decide), h2⟩
